import Mathlib

/-!
Shallow embedding of the pycdt defect-analysis layer
(src/pycdt/corrections/defects_analyzer.py) and of the VASP input
generator src/pycdcd/utils/vasp.py.

Modelling conventions.
Python floats are modelled as exact rationals (every IEEE float is a
rational number); the transcendental exponential is modelled exactly as
Real.exp, so quantities that pass through exp live in the reals.
Python dicts are modelled as association lists in insertion order, with
an upsert operation for item assignment.  External pymatgen and scipy
facilities (structure symmetrization, numerical quadrature, the interior
of the bisection root finder) are out of scope per the specification and
enter the embedding as data or as abstract parameters; everything the
repository itself computes is translated statement by statement.
-/

/-- Association-list lookup, modelling a Python dict read that may miss. -/
def dictFind {α β : Type} [DecidableEq α] (l : List (α × β)) (k : α) : Option β :=
  (l.find? (fun p => decide (p.1 = k))).map Prod.snd

/-- Dict read with a default value for an absent key. -/
def dictFindD {α β : Type} [DecidableEq α] (l : List (α × β)) (k : α) (d : β) : β :=
  (dictFind l k).getD d

/-- Dict item assignment: overwrite the value when the key is present,
append a fresh binding otherwise (Python dicts keep insertion order). -/
def dictUpsert {α β : Type} [DecidableEq α] (l : List (α × β)) (k : α) (v : β) :
    List (α × β) :=
  if k ∈ l.map Prod.fst then
    l.map (fun p => if p.1 = k then (k, v) else p)
  else l ++ [(k, v)]

/-- A site of the symmetrized bulk structure.  `equivCount` records the
externally computed value len(find_equivalent_sites(s)) for this site. -/
structure SymmSite where
  frac_coords : ℚ × ℚ × ℚ
  equivCount : ℕ
deriving DecidableEq

/-- The bulk structure together with the symmetry data that
SpacegroupAnalyzer(...).get_symmetrized_structure() provides externally:
the site list (with equivalent-site counts) and the cell volume. -/
structure SymmStructure where
  sites : List SymmSite
  volume : ℚ
deriving DecidableEq

/-- A pymatgen ComputedStructureEntry, reduced to the fields the analyzer
reads: total energy, composition (element symbol to amount, amounts of
listed elements nonzero and symbols distinct in pymatgen), and the
structure. -/
structure ComputedEntry where
  energy : ℚ
  composition : List (String × ℚ)
  struct : SymmStructure
deriving DecidableEq

/-- A pymatgen PeriodicSite, reduced to its fractional coordinates. -/
structure Site where
  frac_coords : ℚ × ℚ × ℚ
deriving DecidableEq

/-- ParsedDefect: defect entry, its site in the bulk, charge, energy
correction and name.  The derived field _full_name (name + "_" + str(charge))
is determined by `name` and `charge` and is not stored separately. -/
structure ParsedDefect where
  entry : ComputedEntry
  site : Site
  charge : ℚ
  charge_correction : ℚ
  name : String
deriving DecidableEq

instance : Inhabited ParsedDefect :=
  ⟨⟨⟨0, [], ⟨[], 0⟩⟩, ⟨(0, 0, 0)⟩, 0, 0, ""⟩⟩

/-- DefectsAnalyzer state: the five attributes set in __init__ plus the
two lists maintained afterwards. -/
structure DefectsAnalyzer where
  entry_bulk : ComputedEntry
  e_vbm : ℚ
  mu_elts : List (String × ℚ)
  band_gap : ℚ
  defects : List ParsedDefect
  formation_energies : List ℚ
deriving DecidableEq

/-- pymatgen composition lookup: composition[elt] reads as 0 when the
element is absent. -/
def compositionCount (c : List (String × ℚ)) (el : String) : ℚ :=
  dictFindD c el 0

/-- The chemical-potential sum of _compute_form_en for one defect:
mu_needed_coeffs is built over the elements of the defect entry
composition (a duplicate-free list in pymatgen) and summed against
mu_elts.  A missing mu_elts key would raise KeyError in Python; the
claims under study stay on defined keys, modelled here with default 0. -/
def sum_mus (bulk : ComputedEntry) (mu_elts : List (String × ℚ))
    (d : ParsedDefect) : ℚ :=
  (d.entry.composition.map Prod.fst).foldl
    (fun acc el =>
      acc + (compositionCount bulk.composition el -
             compositionCount d.entry.composition el) * dictFindD mu_elts el 0) 0

/-- The formation energy _compute_form_en appends for one defect:
entry energy minus bulk energy, plus chemical-potential sum, plus
charge times e_vbm, plus the charge correction. -/
def form_en (bulk : ComputedEntry) (e_vbm : ℚ) (mu_elts : List (String × ℚ))
    (d : ParsedDefect) : ℚ :=
  d.entry.energy - bulk.energy + sum_mus bulk mu_elts d +
    d.charge * e_vbm + d.charge_correction

/-- _compute_form_en: rebuild the formation-energy list, one entry per
defect in order. -/
def compute_form_en (a : DefectsAnalyzer) : DefectsAnalyzer :=
  { a with formation_energies :=
      a.defects.map (form_en a.entry_bulk a.e_vbm a.mu_elts) }

/-- __init__ of DefectsAnalyzer. -/
def DefectsAnalyzer.init (entry_bulk : ComputedEntry) (e_vbm : ℚ)
    (mu_elts : List (String × ℚ)) (band_gap : ℚ) : DefectsAnalyzer :=
  ⟨entry_bulk, e_vbm, mu_elts, band_gap, [], []⟩

/-- add_parsed_defect: append the defect, then recompute all formation
energies. -/
def add_parsed_defect (a : DefectsAnalyzer) (d : ParsedDefect) : DefectsAnalyzer :=
  compute_form_en { a with defects := a.defects ++ [d] }

/-- change_charge_correction: overwrite the charge correction of the
defect at index i, then recompute all formation energies. -/
def change_charge_correction (a : DefectsAnalyzer) (i : ℕ) (correction : ℚ) :
    DefectsAnalyzer :=
  compute_form_en
    { a with defects :=
        a.defects.set i { a.defects.getD i default with charge_correction := correction } }

/-- correct_bg_simple: widen the gap, lower the vbm, recompute. -/
def correct_bg_simple (a : DefectsAnalyzer) (vbm_correct cbm_correct : ℚ) :
    DefectsAnalyzer :=
  compute_form_en
    { a with band_gap := a.band_gap + cbm_correct + vbm_correct,
             e_vbm := a.e_vbm - vbm_correct }

/-- The per-defect shift the loop at the end of correct_bg applies to the
freshly recomputed formation energy: defects listed in dict_levels as
vbm_like move by (charge - qstar) * vbm_correct, cbm_like ones by
(qstar - charge) * cbm_correct, others are untouched. -/
def bg_level_shift (dict_levels : List (String × String × ℚ))
    (vbm_correct cbm_correct : ℚ) (d : ParsedDefect) : ℚ :=
  match dictFind dict_levels d.name with
  | none => 0
  | some tq =>
      (if tq.1 = "vbm_like" then (d.charge - tq.2) * vbm_correct else 0) +
      (if tq.1 = "cbm_like" then (tq.2 - d.charge) * cbm_correct else 0)

/-- correct_bg: widen the gap, lower the vbm, recompute all formation
energies, then shift the entry of each defect named in dict_levels. -/
def correct_bg (a : DefectsAnalyzer) (dict_levels : List (String × String × ℚ))
    (vbm_correct cbm_correct : ℚ) : DefectsAnalyzer :=
  let a1 := compute_form_en
    { a with band_gap := a.band_gap + cbm_correct + vbm_correct,
             e_vbm := a.e_vbm - vbm_correct };
  { a1 with formation_energies :=
      ((a1.defects.zip a1.formation_energies).map
        (fun p => p.2 + bg_level_shift dict_levels vbm_correct cbm_correct p.1)) }

/-- _get_form_energy(ef, i): stored formation energy at index i plus
charge at index i times the Fermi level. -/
def get_form_energy (a : DefectsAnalyzer) (ef : ℚ) (i : ℕ) : ℚ :=
  a.formation_energies.getD i 0 + (a.defects.getD i default).charge * ef

/-! ### Basic facts about compute_form_en and the mutating operations -/

theorem compute_form_en_spec (a : DefectsAnalyzer) :
    (compute_form_en a).formation_energies
      = a.defects.map (form_en a.entry_bulk a.e_vbm a.mu_elts) := rfl

theorem add_parsed_defect_defects (a : DefectsAnalyzer) (d : ParsedDefect) :
    (add_parsed_defect a d).defects = a.defects ++ [d] := rfl

theorem add_parsed_defect_form (a : DefectsAnalyzer) (d : ParsedDefect) :
    (add_parsed_defect a d).formation_energies
      = (a.defects ++ [d]).map (form_en a.entry_bulk a.e_vbm a.mu_elts) := rfl

theorem zip_self_map {α β γ : Type} (l : List α) (f : α → β) (g : α → β → γ) :
    ((l.zip (l.map f)).map (fun p => g p.1 p.2)) = l.map (fun x => g x (f x)) := by
  induction l with
  | nil => rfl
  | cons x xs ih => simp [ih]

theorem correct_bg_form (a : DefectsAnalyzer) (dl : List (String × String × ℚ))
    (vc cc : ℚ) :
    (correct_bg a dl vc cc).formation_energies
      = a.defects.map (fun d =>
          form_en a.entry_bulk (a.e_vbm - vc) a.mu_elts d + bg_level_shift dl vc cc d) := by
  show ((a.defects.zip (a.defects.map (form_en a.entry_bulk (a.e_vbm - vc) a.mu_elts))).map
      (fun p => p.2 + bg_level_shift dl vc cc p.1)) = _
  exact zip_self_map a.defects _ (fun d fe => fe + bg_level_shift dl vc cc d)

theorem correct_bg_defects (a : DefectsAnalyzer) (dl : List (String × String × ℚ))
    (vc cc : ℚ) : (correct_bg a dl vc cc).defects = a.defects := rfl

/-- C6: for every defect index within range, the formation energy as a
function of the Fermi level is affine with slope the defect charge:
_get_form_energy(ef, i) = _get_form_energy(0, i) + charge_i * ef, hence
differences of formation energies at two Fermi levels equal the charge
times the difference of the Fermi levels. -/
theorem c6_form_energy_affine_in_ef (a : DefectsAnalyzer) (ef1 ef2 : ℚ) (i : ℕ)
    (hi : i < a.defects.length) :
    get_form_energy a ef1 i
        = get_form_energy a 0 i + (a.defects.getD i default).charge * ef1 ∧
    get_form_energy a ef1 i - get_form_energy a ef2 i
        = (a.defects.getD i default).charge * (ef1 - ef2) := by
  unfold get_form_energy
  constructor <;> ring

/-- Concrete two-defect analyzer reused by several witnesses below. -/
def bulkA : ComputedEntry := ⟨0, [("A", 1)], ⟨[⟨(0, 0, 0), 1⟩], 1⟩⟩

def defectV0 : ParsedDefect := ⟨⟨-1, [("A", 1)], ⟨[], 1⟩⟩, ⟨(0, 0, 0)⟩, 0, 0, "v"⟩

def defectV1 : ParsedDefect := ⟨⟨-1, [("A", 1)], ⟨[], 1⟩⟩, ⟨(0, 0, 0)⟩, 1, 0, "v"⟩

def anaA : DefectsAnalyzer :=
  add_parsed_defect
    (add_parsed_defect (DefectsAnalyzer.init bulkA 0 [("A", 0)] 2) defectV0)
    defectV1

theorem anaA_defects_length : anaA.defects.length = 2 := rfl

theorem c6_witness :
    0 < anaA.defects.length ∧
    (get_form_energy anaA 1 0
        = get_form_energy anaA 0 0 + (anaA.defects.getD 0 default).charge * 1 ∧
     get_form_energy anaA 1 0 - get_form_energy anaA 2 0
        = (anaA.defects.getD 0 default).charge * (1 - 2)) :=
  ⟨by norm_num [anaA_defects_length],
   c6_form_energy_affine_in_ef anaA 1 2 0 (by norm_num [anaA_defects_length])⟩

/-- C8: every public mutating operation (init, add_parsed_defect,
change_charge_correction, correct_bg_simple, correct_bg) leaves
_formation_energies exactly as long as _defects, with the i-th entry the
formation energy of the i-th defect (for correct_bg, the recomputed
formation energy plus the level shift of that defect); add_parsed_defect
appends the new defect, so earlier indices keep their defects. -/
theorem c8_formation_list_invariant :
    (∀ (eb : ComputedEntry) (evbm : ℚ) (mu : List (String × ℚ)) (bg : ℚ),
      (DefectsAnalyzer.init eb evbm mu bg).formation_energies
          = (DefectsAnalyzer.init eb evbm mu bg).defects.map (form_en eb evbm mu) ∧
      (DefectsAnalyzer.init eb evbm mu bg).formation_energies.length
          = (DefectsAnalyzer.init eb evbm mu bg).defects.length) ∧
    (∀ (a : DefectsAnalyzer) (d : ParsedDefect),
      (add_parsed_defect a d).formation_energies
          = (add_parsed_defect a d).defects.map (form_en a.entry_bulk a.e_vbm a.mu_elts) ∧
      (add_parsed_defect a d).formation_energies.length
          = (add_parsed_defect a d).defects.length ∧
      (add_parsed_defect a d).defects = a.defects ++ [d]) ∧
    (∀ (a : DefectsAnalyzer) (i : ℕ) (c : ℚ),
      (change_charge_correction a i c).formation_energies
          = (change_charge_correction a i c).defects.map
              (form_en a.entry_bulk a.e_vbm a.mu_elts) ∧
      (change_charge_correction a i c).formation_energies.length
          = (change_charge_correction a i c).defects.length) ∧
    (∀ (a : DefectsAnalyzer) (vc cc : ℚ),
      (correct_bg_simple a vc cc).formation_energies
          = (correct_bg_simple a vc cc).defects.map
              (form_en a.entry_bulk (a.e_vbm - vc) a.mu_elts) ∧
      (correct_bg_simple a vc cc).formation_energies.length
          = (correct_bg_simple a vc cc).defects.length) ∧
    (∀ (a : DefectsAnalyzer) (dl : List (String × String × ℚ)) (vc cc : ℚ),
      (correct_bg a dl vc cc).formation_energies
          = (correct_bg a dl vc cc).defects.map (fun d =>
              form_en a.entry_bulk (a.e_vbm - vc) a.mu_elts d + bg_level_shift dl vc cc d) ∧
      (correct_bg a dl vc cc).formation_energies.length
          = (correct_bg a dl vc cc).defects.length) := by
  refine ⟨fun eb evbm mu bg => ⟨rfl, rfl⟩, fun a d => ⟨rfl, by simp [add_parsed_defect, compute_form_en], rfl⟩,
    fun a i c => ⟨rfl, by simp [change_charge_correction, compute_form_en]⟩,
    fun a vc cc => ⟨rfl, by simp [correct_bg_simple, compute_form_en]⟩,
    fun a dl vc cc => ⟨?_, ?_⟩⟩
  · rw [correct_bg_form, correct_bg_defects]
  · rw [correct_bg_form, correct_bg_defects]
    simp

/-! ### C9: the frame property of change_charge_correction -/

def bulkC : ComputedEntry := ⟨0, [("A", 1)], ⟨[⟨(0, 0, 0), 1⟩], 1⟩⟩

def defectW : ParsedDefect := ⟨⟨0, [("A", 1)], ⟨[], 1⟩⟩, ⟨(0, 0, 0)⟩, 0, 0, "w"⟩

def defectV : ParsedDefect := ⟨⟨0, [("A", 1)], ⟨[], 1⟩⟩, ⟨(0, 0, 0)⟩, 1, 0, "v"⟩

/-- An analyzer whose stored formation energies were shifted by correct_bg
with a vbm_like level: the stored list no longer equals the plain
recomputed formula values. -/
def anaShifted : DefectsAnalyzer :=
  correct_bg
    (add_parsed_defect
      (add_parsed_defect (DefectsAnalyzer.init bulkC 0 [("A", 0)] 1) defectW)
      defectV)
    [("v", ("vbm_like", 0))] 1 0

/-- C9 counterexample: on anaShifted, change_charge_correction at the valid
index 0 also changes the stored formation energy of the defect at index 1,
because _compute_form_en rebuilds every entry from the plain formula and
discards the correct_bg level shift. -/
theorem c9_counterexample :
    0 < anaShifted.defects.length ∧
    (change_charge_correction anaShifted 0 5).formation_energies.getD 1 0
      ≠ anaShifted.formation_energies.getD 1 0 := by
  constructor
  · norm_num [anaShifted, correct_bg, add_parsed_defect, compute_form_en,
      DefectsAnalyzer.init]
  · norm_num [anaShifted, correct_bg, add_parsed_defect, compute_form_en,
      DefectsAnalyzer.init, change_charge_correction, form_en, sum_mus,
      compositionCount, dictFindD, dictFind, bg_level_shift, bulkC,
      defectW, defectV]

/-- C9 as amended: the frame property of change_charge_correction holds for
analyzers whose stored formation-energy list agrees with the recomputed
formula values (as after init, add_parsed_defect, change_charge_correction
or correct_bg_simple; correct_bg with a nonzero level shift breaks this
precondition): the i-th correction becomes `corr`, the i-th formation
energy moves by (corr - old correction), every other formation energy and
the bulk entry, e_vbm, mu_elts and band_gap are unchanged. -/
theorem c9_change_charge_correction_frame (a : DefectsAnalyzer) (i : ℕ) (corr : ℚ)
    (hi : i < a.defects.length)
    (hsync : a.formation_energies
      = a.defects.map (form_en a.entry_bulk a.e_vbm a.mu_elts)) :
    ((change_charge_correction a i corr).defects.getD i default).charge_correction
        = corr ∧
    (change_charge_correction a i corr).formation_energies.getD i 0
      = a.formation_energies.getD i 0
          + (corr - (a.defects.getD i default).charge_correction) ∧
    (∀ j, j ≠ i →
      (change_charge_correction a i corr).formation_energies.getD j 0
        = a.formation_energies.getD j 0) ∧
    (change_charge_correction a i corr).entry_bulk = a.entry_bulk ∧
    (change_charge_correction a i corr).e_vbm = a.e_vbm ∧
    (change_charge_correction a i corr).mu_elts = a.mu_elts ∧
    (change_charge_correction a i corr).band_gap = a.band_gap := by
  set d0 := a.defects.getD i default with hd0
  set d' : ParsedDefect := { d0 with charge_correction := corr } with hd'
  have hdef : (change_charge_correction a i corr).defects = a.defects.set i d' := rfl
  have hfe : (change_charge_correction a i corr).formation_energies
      = (a.defects.set i d').map (form_en a.entry_bulk a.e_vbm a.mu_elts) := rfl
  have hset : (a.defects.set i d')[i]? = some d' := List.getElem?_set_eq (by simpa using hi)
  have hgd : a.defects[i]? = some d0 := by
    rw [hd0, List.getD_eq_getElem?_getD, List.getElem?_eq_getElem hi]
    rfl
  refine ⟨?_, ?_, ?_, rfl, rfl, rfl, rfl⟩
  · rw [hdef, List.getD_eq_getElem?_getD, hset]
    rfl
  · rw [hfe, List.getD_eq_getElem?_getD, List.getElem?_map, hset, hsync,
      List.getD_eq_getElem?_getD, List.getElem?_map, hgd]
    show form_en a.entry_bulk a.e_vbm a.mu_elts d'
        = form_en a.entry_bulk a.e_vbm a.mu_elts d0 + (corr - d0.charge_correction)
    have hent : d'.entry = d0.entry := rfl
    have hch : d'.charge = d0.charge := rfl
    have hcc : d'.charge_correction = corr := rfl
    unfold form_en
    rw [hent, hch, hcc]
    have : sum_mus a.entry_bulk a.mu_elts d' = sum_mus a.entry_bulk a.mu_elts d0 := rfl
    rw [this]
    ring
  · intro j hj
    rw [hfe, hsync, List.getD_eq_getElem?_getD, List.getD_eq_getElem?_getD,
      List.getElem?_map, List.getElem?_map, List.getElem?_set_ne (fun h => hj h.symm)]

/-- C9 witness for the amended theorem, on the concrete analyzer anaA. -/
theorem c9_witness :
    0 < anaA.defects.length ∧
    ((change_charge_correction anaA 0 5).defects.getD 0 default).charge_correction
        = 5 ∧
    (change_charge_correction anaA 0 5).formation_energies.getD 0 0
      = anaA.formation_energies.getD 0 0
          + (5 - (anaA.defects.getD 0 default).charge_correction) ∧
    (∀ j, j ≠ 0 →
      (change_charge_correction anaA 0 5).formation_energies.getD j 0
        = anaA.formation_energies.getD j 0) ∧
    (change_charge_correction anaA 0 5).entry_bulk = anaA.entry_bulk ∧
    (change_charge_correction anaA 0 5).e_vbm = anaA.e_vbm ∧
    (change_charge_correction anaA 0 5).mu_elts = anaA.mu_elts ∧
    (change_charge_correction anaA 0 5).band_gap = anaA.band_gap :=
  ⟨by norm_num [anaA_defects_length],
   c9_change_charge_correction_frame anaA 0 5 (by norm_num [anaA_defects_length]) rfl⟩

/-! ### C2: the formation-energy formula after init plus add_parsed_defect -/

/-- An analyzer built the way the claim describes: __init__ followed by a
sequence of add_parsed_defect calls. -/
def build_analyzer (eb : ComputedEntry) (evbm : ℚ) (mu : List (String × ℚ))
    (bg : ℚ) (ds : List ParsedDefect) : DefectsAnalyzer :=
  ds.foldl add_parsed_defect (DefectsAnalyzer.init eb evbm mu bg)

theorem foldl_add_parsed_defect (ds : List ParsedDefect) (a : DefectsAnalyzer)
    (hsync : a.formation_energies
      = a.defects.map (form_en a.entry_bulk a.e_vbm a.mu_elts)) :
    (ds.foldl add_parsed_defect a).entry_bulk = a.entry_bulk ∧
    (ds.foldl add_parsed_defect a).e_vbm = a.e_vbm ∧
    (ds.foldl add_parsed_defect a).mu_elts = a.mu_elts ∧
    (ds.foldl add_parsed_defect a).band_gap = a.band_gap ∧
    (ds.foldl add_parsed_defect a).defects = a.defects ++ ds ∧
    (ds.foldl add_parsed_defect a).formation_energies
      = (a.defects ++ ds).map (form_en a.entry_bulk a.e_vbm a.mu_elts) := by
  induction ds generalizing a with
  | nil => simpa using hsync
  | cons d ds ih =>
    have h := ih (add_parsed_defect a d) rfl
    simpa [add_parsed_defect, compute_form_en] using h

theorem build_analyzer_spec (eb : ComputedEntry) (evbm : ℚ)
    (mu : List (String × ℚ)) (bg : ℚ) (ds : List ParsedDefect) :
    (build_analyzer eb evbm mu bg ds).defects = ds ∧
    (build_analyzer eb evbm mu bg ds).formation_energies
      = ds.map (form_en eb evbm mu) := by
  have h := foldl_add_parsed_defect ds (DefectsAnalyzer.init eb evbm mu bg) rfl
  exact ⟨by simpa [DefectsAnalyzer.init] using h.2.2.2.2.1,
         by simpa [DefectsAnalyzer.init] using h.2.2.2.2.2⟩

/-- Formation energy as the claim words it: the chemical-potential sum
ranges over all elements, of the bulk composition as well as of the
defect composition. -/
def form_en_all_elements (bulk : ComputedEntry) (e_vbm : ℚ)
    (mu_elts : List (String × ℚ)) (d : ParsedDefect) : ℚ :=
  d.entry.energy - bulk.energy
    + ((bulk.composition.map Prod.fst ++ d.entry.composition.map Prod.fst).dedup).foldl
        (fun acc el =>
          acc + (compositionCount bulk.composition el -
                 compositionCount d.entry.composition el) * dictFindD mu_elts el 0) 0
    + d.charge * e_vbm + d.charge_correction

def bulkGa : ComputedEntry := ⟨0, [("Ga", 1)], ⟨[⟨(0, 0, 0), 1⟩], 1⟩⟩

def defectAs : ParsedDefect := ⟨⟨0, [("As", 1)], ⟨[], 1⟩⟩, ⟨(0, 0, 0)⟩, 0, 0, "sub"⟩

def muGaAs : List (String × ℚ) := [("Ga", 1), ("As", 0)]

/-- C2 counterexample: the code sums chemical potentials only over the
elements of the defect entry composition, so an element present in the
bulk but absent from the defect entry (Ga below, with mu_Ga = 1)
contributes to the claimed value but not to the stored one. -/
theorem c2_counterexample :
    (build_analyzer bulkGa 0 muGaAs 1 [defectAs]).formation_energies.getD 0 0
      ≠ form_en_all_elements bulkGa 0 muGaAs defectAs := by
  norm_num [build_analyzer, add_parsed_defect, compute_form_en,
    DefectsAnalyzer.init, form_en, sum_mus, form_en_all_elements,
    compositionCount, dictFindD, dictFind, bulkGa, defectAs, muGaAs,
    List.dedup, List.foldl, (by decide : ¬(("As" : String) = "Ga"))]

/-- C2 as amended: after __init__ plus add_parsed_defect calls, the stored
formation energy of each defect equals its entry energy minus the bulk
energy, plus the sum over the elements of the defect entry composition of
(bulk count minus defect count) times the chemical potential, plus charge
times e_vbm, plus the charge correction. -/
theorem c2_formation_energy_formula (eb : ComputedEntry) (evbm : ℚ)
    (mu : List (String × ℚ)) (bg : ℚ) (ds : List ParsedDefect) (i : ℕ)
    (hi : i < ds.length) :
    (build_analyzer eb evbm mu bg ds).formation_energies.getD i 0
      = (ds.getD i default).entry.energy - eb.energy
        + ((ds.getD i default).entry.composition.map Prod.fst).foldl
            (fun acc el =>
              acc + (compositionCount eb.composition el -
                     compositionCount (ds.getD i default).entry.composition el)
                    * dictFindD mu el 0) 0
        + (ds.getD i default).charge * evbm
        + (ds.getD i default).charge_correction := by
  have h := (build_analyzer_spec eb evbm mu bg ds).2
  rw [h, List.getD_eq_getElem?_getD, List.getElem?_map,
    List.getElem?_eq_getElem hi]
  show form_en eb evbm mu ds[i] = _
  rw [List.getD_eq_getElem?_getD, List.getElem?_eq_getElem hi]
  rfl

/-- C2 witness: the formula evaluated on a concrete two-defect analyzer. -/
theorem c2_witness :
    0 < 2 ∧
    (build_analyzer bulkA 0 [("A", 0)] 2 [defectV0, defectV1]).formation_energies.getD 0 0
      = ([defectV0, defectV1].getD 0 default).entry.energy - bulkA.energy
        + (([defectV0, defectV1].getD 0 default).entry.composition.map Prod.fst).foldl
            (fun acc el =>
              acc + (compositionCount bulkA.composition el -
                     compositionCount ([defectV0, defectV1].getD 0 default).entry.composition el)
                    * dictFindD [("A", 0)] el 0) 0
        + ([defectV0, defectV1].getD 0 default).charge * 0
        + ([defectV0, defectV1].getD 0 default).charge_correction :=
  ⟨by norm_num,
   c2_formation_energy_formula bulkA 0 [("A", 0)] 2 [defectV0, defectV1] 0 (by norm_num)⟩

/-! ### C4: get_transition_levels -/

/-- The Fermi-level grid of get_transition_levels:
np.arange(-0.5, band_gap + 1.5, ((band_gap + 1.5) - (-0.5)) / 1000), which
for a positive band gap (positive step) is exactly the 1000 points
-0.5 + k * step, k = 0 .. 999. -/
def tl_grid (bg : ℚ) : List ℚ :=
  (List.range 1000).map (fun k : ℕ => (-1/2 : ℚ) + (k : ℚ) * ((bg + 3/2 - (-1/2 : ℚ)) / 1000))

/-- The nested y dict of get_transition_levels: defect name, then charge,
then the formation-energy line sampled over the grid; iterating the
defects in order, a later defect with the same name and charge overwrites
the earlier line. -/
def build_y (a : DefectsAnalyzer) : List (String × List (ℚ × List ℚ)) :=
  (a.defects.zip a.formation_energies).foldl
    (fun y p =>
      dictUpsert y p.1.name
        (dictUpsert (dictFindD y p.1.name []) p.1.charge
          ((tl_grid a.band_gap).map (fun x => p.2 + p.1.charge * x)))) []

/-- itertools.combinations(keys, 2): ordered pairs with the first component
appearing before the second in the key list. -/
def pairs_of {α : Type} : List α → List (α × α)
  | [] => []
  | x :: xs => xs.map (fun z => (x, z)) ++ pairs_of xs

/-- The pointwise array abs(q_ys[qpair[1]] - q_ys[qpair[0]]). -/
def pair_absdiff (qys : List (ℚ × List ℚ)) (qp : ℚ × ℚ) : List ℚ :=
  List.zipWith (fun b av => |b - av|) (dictFindD qys qp.2 []) (dictFindD qys qp.1 [])

/-- np.min of a nonempty array (the empty case never arises: the grid has
1000 points). -/
def list_min : List ℚ → ℚ
  | [] => 0
  | [x] => x
  | x :: y :: xs => min x (list_min (y :: xs))

/-- np.argmin: the first index attaining the minimum. -/
def list_argmin : List ℚ → ℕ
  | [] => 0
  | [_] => 0
  | x :: y :: xs => if list_min (y :: xs) < x then list_argmin (y :: xs) + 1 else 0

/-- get_transition_levels: for every name of the y dict and every
combination of two of its charge states, report x[argmin |line2 - line1|]
when the minimal absolute difference is below 0.4.  The Python result is
a defaultdict that holds a name only when at least one of its pairs
qualifies; it is modelled as one (possibly empty) pair list per name,
which makes exactly the same (name, pair) lookups succeed. -/
def get_transition_levels (a : DefectsAnalyzer) : List (String × List ((ℚ × ℚ) × ℚ)) :=
  (build_y a).map (fun nqys =>
    (nqys.1, (pairs_of (nqys.2.map Prod.fst)).filterMap (fun qp =>
      if list_min (pair_absdiff nqys.2 qp) < 2/5 then
        some (qp, (tl_grid a.band_gap).getD (list_argmin (pair_absdiff nqys.2 qp)) 0)
      else none)))

/-- Lookup of one reported transition level. -/
def transition_level_of (a : DefectsAnalyzer) (n : String) (qp : ℚ × ℚ) : Option ℚ :=
  dictFind (dictFindD (get_transition_levels a) n []) qp

/-! ### Dictionary and argmin lemmas supporting C4 -/

theorem dictUpsert_keys {α β : Type} [DecidableEq α] (l : List (α × β)) (k : α) (v : β) :
    (dictUpsert l k v).map Prod.fst
      = if k ∈ l.map Prod.fst then l.map Prod.fst else l.map Prod.fst ++ [k] := by
  unfold dictUpsert
  split
  · rename_i h
    rw [List.map_map]
    congr 1
    funext p
    by_cases hp : p.1 = k <;> simp [hp]
  · rename_i h
    simp

theorem dictUpsert_keys_nodup {α β : Type} [DecidableEq α] (l : List (α × β))
    (k : α) (v : β) (h : (l.map Prod.fst).Nodup) :
    ((dictUpsert l k v).map Prod.fst).Nodup := by
  rw [dictUpsert_keys]
  split
  · exact h
  · rename_i hk
    simp [List.nodup_append, h, hk]

theorem mem_dictUpsert {α β : Type} [DecidableEq α] (l : List (α × β)) (k : α)
    (v : β) (p : α × β) (hp : p ∈ dictUpsert l k v) : p = (k, v) ∨ p ∈ l := by
  unfold dictUpsert at hp
  split at hp
  · obtain ⟨q, hq, hpq⟩ := List.mem_map.mp hp
    by_cases h : q.1 = k
    · simp [h] at hpq
      exact Or.inl hpq.symm
    · simp [h] at hpq
      exact Or.inr (hpq ▸ hq)
  · rcases List.mem_append.mp hp with h | h
    · exact Or.inr h
    · simp at h
      exact Or.inl h

theorem dictFind_mem {α β : Type} [DecidableEq α] (l : List (α × β)) (k : α)
    (v : β) (h : dictFind l k = some v) : (k, v) ∈ l := by
  unfold dictFind at h
  obtain ⟨p, hp, hpv⟩ := Option.map_eq_some'.mp h
  have hk := List.find?_some hp
  have hmem := List.mem_of_find?_eq_some hp
  have : p.1 = k := by simpa using hk
  have : p = (k, v) := by
    cases p
    simp_all
  exact this ▸ hmem

theorem mem_pairs_of {α : Type} (l : List α) (x z : α)
    (h : (x, z) ∈ pairs_of l) : x ∈ l ∧ z ∈ l := by
  induction l with
  | nil => cases h
  | cons y ys ih =>
    unfold pairs_of at h
    rcases List.mem_append.mp h with h | h
    · obtain ⟨w, hw, hxz⟩ := List.mem_map.mp h
      obtain ⟨rfl, rfl⟩ := Prod.mk.injEq .. ▸ hxz.symm
      exact ⟨List.mem_cons_self .., List.mem_cons_of_mem _ hw⟩
    · obtain ⟨hx, hz⟩ := ih h
      exact ⟨List.mem_cons_of_mem _ hx, List.mem_cons_of_mem _ hz⟩

theorem pairs_of_nodup {α : Type} (l : List α) (h : l.Nodup) :
    (pairs_of l).Nodup := by
  induction l with
  | nil => exact List.nodup_nil
  | cons x xs ih =>
    unfold pairs_of
    have hx : x ∉ xs := (List.nodup_cons.mp h).1
    have hxs : xs.Nodup := (List.nodup_cons.mp h).2
    refine List.Nodup.append ?_ (ih hxs) ?_
    · exact hxs.map (fun a b hab => by simpa using hab)
    · intro p hp1 hp2
      obtain ⟨w, _, rfl⟩ := List.mem_map.mp hp1
      exact hx (mem_pairs_of xs x w hp2).1

theorem dictFind_none_of_not_mem {α β : Type} [DecidableEq α]
    (l : List (α × β)) (k : α) (h : k ∉ l.map Prod.fst) : dictFind l k = none := by
  unfold dictFind
  rw [List.find?_eq_none.mpr]
  · rfl
  · intro p hp
    simp only [decide_eq_true_eq]
    intro hpk
    exact h (List.mem_map.mpr ⟨p, hp, hpk⟩)

theorem dictFind_map_snd {α β γ : Type} [DecidableEq α] (l : List (α × β))
    (g : β → γ) (k : α) :
    dictFind (l.map (fun p => (p.1, g p.2))) k = (dictFind l k).map g := by
  induction l with
  | nil => rfl
  | cons p l ih =>
    by_cases hp : p.1 = k
    · simp [dictFind, List.find?_cons, hp]
    · simpa [dictFind, List.find?_cons, hp] using ih

theorem dictFind_filterMap_keyed_none {α β : Type} [DecidableEq α]
    (pl : List α) (f : α → Option β) (k : α) (hk : k ∉ pl) :
    dictFind (pl.filterMap (fun q => (f q).map (fun w => (q, w)))) k = none := by
  apply dictFind_none_of_not_mem
  intro hmem
  obtain ⟨p, hp, hpk⟩ := List.mem_map.mp hmem
  obtain ⟨q, hq, hqp⟩ := List.mem_filterMap.mp hp
  obtain ⟨w, _, rfl⟩ := Option.map_eq_some'.mp hqp
  exact hk (hpk ▸ hq)

theorem dictFind_filterMap_keyed {α β : Type} [DecidableEq α] (pl : List α)
    (f : α → Option β) (k : α) (hmem : k ∈ pl) (hnd : pl.Nodup) :
    dictFind (pl.filterMap (fun q => (f q).map (fun w => (q, w)))) k = f k := by
  induction pl with
  | nil => cases hmem
  | cons q pl ih =>
    have hq : q ∉ pl := (List.nodup_cons.mp hnd).1
    have hnd' : pl.Nodup := (List.nodup_cons.mp hnd).2
    rcases List.mem_cons.mp hmem with rfl | hk
    · rw [List.filterMap_cons]
      cases hf : f k with
      | none => simpa using dictFind_filterMap_keyed_none pl f k hq
      | some w => simp [dictFind, List.find?_cons]
    · have hne : q ≠ k := fun h => hq (h ▸ hk)
      rw [List.filterMap_cons]
      cases hf : f q with
      | none => exact ih hk hnd'
      | some w =>
        have heq : dictFind ((q, w) :: pl.filterMap (fun q => (f q).map (fun w => (q, w)))) k
            = dictFind (pl.filterMap (fun q => (f q).map (fun w => (q, w)))) k := by
          simp [dictFind, List.find?_cons, hne]
        simp only [Option.map_some']
        rw [heq]
        exact ih hk hnd'

theorem list_argmin_lt_length (l : List ℚ) (h : l ≠ []) :
    list_argmin l < l.length := by
  induction l with
  | nil => exact absurd rfl h
  | cons x xs ih =>
    cases xs with
    | nil => simp [list_argmin]
    | cons y ys =>
      unfold list_argmin
      split
      · have := ih (by simp)
        simpa using Nat.succ_lt_succ this
      · simp

theorem list_min_le (l : List ℚ) : ∀ k < l.length, list_min l ≤ l.getD k 0 := by
  induction l with
  | nil => intro k hk; simp at hk
  | cons x xs ih =>
    cases xs with
    | nil =>
      intro k hk
      simp only [List.length_singleton, Nat.lt_one_iff] at hk
      subst hk
      simp [list_min]
    | cons y ys =>
      intro k hk
      unfold list_min
      cases k with
      | zero => simpa using min_le_left _ _
      | succ k =>
        have hk' : k < (y :: ys).length := by simpa using Nat.lt_of_succ_lt_succ hk
        calc min x (list_min (y :: ys)) ≤ list_min (y :: ys) := min_le_right _ _
          _ ≤ (y :: ys).getD k 0 := ih k hk'

theorem list_min_eq_getD_argmin (l : List ℚ) (h : l ≠ []) :
    list_min l = l.getD (list_argmin l) 0 := by
  induction l with
  | nil => exact absurd rfl h
  | cons x xs ih =>
    cases xs with
    | nil => simp [list_min, list_argmin]
    | cons y ys =>
      unfold list_min list_argmin
      split
      · rename_i hlt
        have := ih (by simp)
        simp only [List.getD_cons_succ]
        rw [← this]
        exact min_eq_right (le_of_lt hlt)
      · rename_i hge
        simp only [List.getD_cons_zero]
        exact min_eq_left (le_of_not_lt hge)

theorem list_argmin_first (l : List ℚ) :
    ∀ k < list_argmin l, list_min l < l.getD k 0 := by
  induction l with
  | nil => intro k hk; simp [list_argmin] at hk
  | cons x xs ih =>
    cases xs with
    | nil => intro k hk; simp [list_argmin] at hk
    | cons y ys =>
      intro k hk
      unfold list_min
      unfold list_argmin at hk
      split at hk
      · rename_i hlt
        cases k with
        | zero =>
          simp only [List.getD_cons_zero]
          exact lt_of_le_of_lt (min_le_right _ _) hlt
        | succ k =>
          have hk' : k < list_argmin (y :: ys) := Nat.lt_of_succ_lt_succ hk
          have := ih k hk'
          simp only [List.getD_cons_succ]
          exact lt_of_le_of_lt (min_le_right _ _) this
      · simp at hk

theorem list_argmin_unique (l : List ℚ) (j : ℕ) (hj : j < l.length)
    (hle : ∀ k < l.length, l.getD j 0 ≤ l.getD k 0)
    (hlt : ∀ k < j, l.getD j 0 < l.getD k 0) : j = list_argmin l := by
  have hne : l ≠ [] := by
    intro h
    rw [h] at hj
    simp at hj
  have ha := list_argmin_lt_length l hne
  have hmin := list_min_eq_getD_argmin l hne
  rcases lt_trichotomy j (list_argmin l) with h | h | h
  · exact absurd (hle (list_argmin l) ha)
      (not_le_of_lt (hmin ▸ list_argmin_first l j h))
  · exact h
  · exact absurd (hlt (list_argmin l) h)
      (not_lt_of_le (hmin ▸ list_min_le l j hj))

theorem tl_grid_length (bg : ℚ) : (tl_grid bg).length = 1000 := by
  unfold tl_grid
  rw [List.length_map, List.length_range]

theorem dictFind_isSome_of_mem_keys {α β : Type} [DecidableEq α]
    (l : List (α × β)) (k : α) (h : k ∈ l.map Prod.fst) :
    ∃ v, dictFind l k = some v := by
  induction l with
  | nil => simp at h
  | cons p l ih =>
    by_cases hp : p.1 = k
    · exact ⟨p.2, by simp [dictFind, List.find?_cons, hp]⟩
    · have h' : k ∈ l.map Prod.fst := by
        rcases (by simpa using h : k = p.1 ∨ k ∈ l.map Prod.fst) with h0 | h0
        · exact absurd h0.symm hp
        · exact h0
      obtain ⟨v, hv⟩ := ih h'
      exact ⟨v, by simpa [dictFind, List.find?_cons, hp] using hv⟩

/-- Well-formedness of the nested y dict: outer keys distinct, inner keys
distinct, and every sampled line has the grid length. -/
def y_wf (len : ℕ) (y : List (String × List (ℚ × List ℚ))) : Prop :=
  (y.map Prod.fst).Nodup ∧
  ∀ p ∈ y, (p.2.map Prod.fst).Nodup ∧ ∀ q ∈ p.2, q.2.length = len

theorem y_wf_step (len : ℕ) (y : List (String × List (ℚ × List ℚ)))
    (hw : y_wf len y) (nm : String) (ch : ℚ) (yv : List ℚ)
    (hyv : yv.length = len) :
    y_wf len (dictUpsert y nm (dictUpsert (dictFindD y nm []) ch yv)) := by
  have hinner : (((dictFindD y nm []).map Prod.fst).Nodup) ∧
      ∀ q ∈ dictFindD y nm [], q.2.length = len := by
    unfold dictFindD
    cases hf : dictFind y nm with
    | none => simp
    | some v =>
      have hmem := dictFind_mem _ _ _ hf
      exact ⟨(hw.2 _ hmem).1, fun q hq => (hw.2 _ hmem).2 q hq⟩
  constructor
  · exact dictUpsert_keys_nodup _ _ _ hw.1
  · intro p hp
    rcases mem_dictUpsert _ _ _ p hp with rfl | hpy
    · refine ⟨dictUpsert_keys_nodup _ _ _ hinner.1, ?_⟩
      intro q hq
      rcases mem_dictUpsert _ _ _ q hq with rfl | hq'
      · exact hyv
      · exact hinner.2 q hq'
    · exact hw.2 p hpy

theorem build_y_wf (a : DefectsAnalyzer) : y_wf 1000 (build_y a) := by
  unfold build_y
  generalize a.defects.zip a.formation_energies = ps
  suffices h : ∀ y, y_wf 1000 y →
      y_wf 1000 (ps.foldl (fun y p =>
        dictUpsert y p.1.name
          (dictUpsert (dictFindD y p.1.name []) p.1.charge
            ((tl_grid a.band_gap).map (fun x => p.2 + p.1.charge * x)))) y) by
    exact h [] ⟨List.nodup_nil, by simp⟩
  induction ps with
  | nil => intro y hy; exact hy
  | cons p ps ih =>
    intro y hy
    exact ih _ (y_wf_step 1000 y hy p.1.name p.1.charge _
      (by rw [List.length_map, tl_grid_length]))

theorem get_transition_levels_find (a : DefectsAnalyzer) (n : String)
    (qys : List (ℚ × List ℚ)) (hn : dictFind (build_y a) n = some qys) :
    dictFind (get_transition_levels a) n
      = some ((pairs_of (qys.map Prod.fst)).filterMap (fun qp =>
          if list_min (pair_absdiff qys qp) < 2/5 then
            some (qp, (tl_grid a.band_gap).getD (list_argmin (pair_absdiff qys qp)) 0)
          else none)) := by
  have h := dictFind_map_snd (build_y a)
    (fun v => (pairs_of (v.map Prod.fst)).filterMap (fun qp =>
      if list_min (pair_absdiff v qp) < 2/5 then
        some (qp, (tl_grid a.band_gap).getD (list_argmin (pair_absdiff v qp)) 0)
      else none)) n
  rw [hn] at h
  exact h

theorem block_find (qys : List (ℚ × List ℚ)) (bg : ℚ) (qp : ℚ × ℚ)
    (hqp : qp ∈ pairs_of (qys.map Prod.fst))
    (hnd : (qys.map Prod.fst).Nodup) :
    dictFind ((pairs_of (qys.map Prod.fst)).filterMap (fun qp =>
        if list_min (pair_absdiff qys qp) < 2/5 then
          some (qp, (tl_grid bg).getD (list_argmin (pair_absdiff qys qp)) 0)
        else none)) qp
      = if list_min (pair_absdiff qys qp) < 2/5 then
          some ((tl_grid bg).getD (list_argmin (pair_absdiff qys qp)) 0)
        else none := by
  have hfn : (fun qp : ℚ × ℚ =>
        if list_min (pair_absdiff qys qp) < 2/5 then
          some (qp, (tl_grid bg).getD (list_argmin (pair_absdiff qys qp)) 0)
        else none)
      = fun q => ((fun q => if list_min (pair_absdiff qys q) < 2/5 then
          some ((tl_grid bg).getD (list_argmin (pair_absdiff qys q)) 0)
          else none) q).map (fun w => (q, w)) := by
    funext q
    by_cases hc : list_min (pair_absdiff qys q) < 2/5 <;> simp [hc]
  rw [hfn]
  exact dictFind_filterMap_keyed _ _ qp hqp (pairs_of_nodup _ hnd)

/-- C4: for each defect name of the y dict and each combination of two of
its distinct charge states, get_transition_levels reports a transition
level if and only if the minimum over the 1000-point Fermi-level grid
spanning [-0.5, band_gap + 1.5] of the absolute difference of the two
formation-energy lines is below 0.4, and the reported level is the grid
point at the first index where that absolute difference is minimal. -/
theorem c4_transition_levels (a : DefectsAnalyzer) (hbg : 0 < a.band_gap)
    (n : String) (qys : List (ℚ × List ℚ))
    (hn : dictFind (build_y a) n = some qys)
    (qp : ℚ × ℚ) (hqp : qp ∈ pairs_of (qys.map Prod.fst)) (lvl : ℚ) :
    (pair_absdiff qys qp).length = 1000 ∧
    (transition_level_of a n qp = some lvl ↔
      ∃ j : ℕ, j < (pair_absdiff qys qp).length ∧
        (∀ k < (pair_absdiff qys qp).length,
          (pair_absdiff qys qp).getD j 0 ≤ (pair_absdiff qys qp).getD k 0) ∧
        (∀ k < j, (pair_absdiff qys qp).getD j 0 < (pair_absdiff qys qp).getD k 0) ∧
        (pair_absdiff qys qp).getD j 0 < 2/5 ∧
        lvl = (tl_grid a.band_gap).getD j 0) := by
  have hw := build_y_wf a
  have hmem := dictFind_mem _ _ _ hn
  have hqnd : (qys.map Prod.fst).Nodup := (hw.2 _ hmem).1
  have hlen : ∀ q ∈ qys, q.2.length = 1000 := fun q hq => (hw.2 _ hmem).2 q hq
  have h12 : qp.1 ∈ qys.map Prod.fst ∧ qp.2 ∈ qys.map Prod.fst := by
    obtain ⟨q1, q2⟩ := qp
    exact mem_pairs_of _ q1 q2 hqp
  obtain ⟨v1, hv1⟩ := dictFind_isSome_of_mem_keys _ _ h12.1
  obtain ⟨v2, hv2⟩ := dictFind_isSome_of_mem_keys _ _ h12.2
  have hl1 : v1.length = 1000 := hlen _ (dictFind_mem _ _ _ hv1)
  have hl2 : v2.length = 1000 := hlen _ (dictFind_mem _ _ _ hv2)
  have hdl : (pair_absdiff qys qp).length = 1000 := by
    unfold pair_absdiff dictFindD
    rw [hv1, hv2]
    simp [hl1, hl2]
  refine ⟨hdl, ?_⟩
  have hne : pair_absdiff qys qp ≠ [] := by
    intro h
    rw [h] at hdl
    simp at hdl
  have hblock : dictFindD (get_transition_levels a) n []
      = (pairs_of (qys.map Prod.fst)).filterMap (fun qp =>
          if list_min (pair_absdiff qys qp) < 2/5 then
            some (qp, (tl_grid a.band_gap).getD (list_argmin (pair_absdiff qys qp)) 0)
          else none) := by
    unfold dictFindD
    rw [get_transition_levels_find a n qys hn]
    rfl
  have htl : transition_level_of a n qp
      = if list_min (pair_absdiff qys qp) < 2/5 then
          some ((tl_grid a.band_gap).getD (list_argmin (pair_absdiff qys qp)) 0)
        else none := by
    unfold transition_level_of
    rw [hblock]
    exact block_find qys a.band_gap qp hqp hqnd
  rw [htl]
  constructor
  · intro h
    by_cases hc : list_min (pair_absdiff qys qp) < 2/5
    · rw [if_pos hc] at h
      have hlvl : lvl
          = (tl_grid a.band_gap).getD (list_argmin (pair_absdiff qys qp)) 0 :=
        (Option.some_inj.mp h).symm
      refine ⟨list_argmin (pair_absdiff qys qp),
        list_argmin_lt_length _ hne, ?_, ?_, ?_, hlvl⟩
      · intro k hk
        rw [← list_min_eq_getD_argmin _ hne]
        exact list_min_le _ k hk
      · intro k hk
        rw [← list_min_eq_getD_argmin _ hne]
        exact list_argmin_first _ k hk
      · rw [← list_min_eq_getD_argmin _ hne]
        exact hc
    · rw [if_neg hc] at h
      cases h
  · rintro ⟨j, hj, hle, hflt, hlt25, hlvl⟩
    have hjam : j = list_argmin (pair_absdiff qys qp) :=
      list_argmin_unique _ j hj hle hflt
    have hminlt : list_min (pair_absdiff qys qp) < 2/5 := by
      rw [list_min_eq_getD_argmin _ hne, ← hjam]
      exact hlt25
    rw [if_pos hminlt, hlvl, hjam]

/-- The y dict content of anaA: one name with two charge states. -/
def qysA : List (ℚ × List ℚ) :=
  [((0 : ℚ), (tl_grid anaA.band_gap).map
      (fun x => form_en bulkA 0 [("A", 0)] defectV0 + 0 * x)),
   ((1 : ℚ), (tl_grid anaA.band_gap).map
      (fun x => form_en bulkA 0 [("A", 0)] defectV1 + 1 * x))]

theorem c4_witness :
    (pair_absdiff qysA ((0 : ℚ), (1 : ℚ))).length = 1000 ∧
    (transition_level_of anaA "v" ((0 : ℚ), (1 : ℚ)) = some 0 ↔
      ∃ j : ℕ, j < (pair_absdiff qysA ((0 : ℚ), (1 : ℚ))).length ∧
        (∀ k < (pair_absdiff qysA ((0 : ℚ), (1 : ℚ))).length,
          (pair_absdiff qysA ((0 : ℚ), (1 : ℚ))).getD j 0
            ≤ (pair_absdiff qysA ((0 : ℚ), (1 : ℚ))).getD k 0) ∧
        (∀ k < j, (pair_absdiff qysA ((0 : ℚ), (1 : ℚ))).getD j 0
            < (pair_absdiff qysA ((0 : ℚ), (1 : ℚ))).getD k 0) ∧
        (pair_absdiff qysA ((0 : ℚ), (1 : ℚ))).getD j 0 < 2/5 ∧
        (0 : ℚ) = (tl_grid anaA.band_gap).getD j 0) :=
  c4_transition_levels anaA
    (by rw [show anaA.band_gap = 2 from rfl]; norm_num)
    "v" qysA rfl ((0 : ℚ), (1 : ℚ))
    (by show ((0 : ℚ), (1 : ℚ)) ∈ pairs_of (qysA.map Prod.fst)
        exact List.mem_singleton.mpr rfl)
    0

/-! ### Concentrations: get_defects_concentration and the non-equilibrium
redistribution -/

/-- kb = 8.6173324e-5 eV/K, the module constant. -/
def kb : ℚ := 86173324 / 10 ^ 12

/-- One element of the lists returned by get_defects_concentration and
_get_non_eq_conc. -/
structure ConcEntry where
  name : String
  charge : ℚ
  conc : ℝ

/-- The site-matching loop of get_defects_concentration: the first
symmetrized-structure site within 0.1 of the defect site in every
fractional coordinate; none models the Python crash path (target_site
stays None and find_equivalent_sites(None) raises). -/
def find_target_site (st : SymmStructure) (s : Site) : Option SymmSite :=
  st.sites.find? (fun t =>
    decide (|t.frac_coords.1 - s.frac_coords.1| < 1/10) &&
    decide (|t.frac_coords.2.1 - s.frac_coords.2.1| < 1/10) &&
    decide (|t.frac_coords.2.2 - s.frac_coords.2.2| < 1/10))

/-- The Boltzmann factor exp(-_get_form_energy(ef, i) / (kb * t)). -/
noncomputable def boltz_weight (a : DefectsAnalyzer) (ef t : ℚ) (i : ℕ) : ℝ :=
  Real.exp (-((get_form_energy a ef i : ℚ) : ℝ) / ((kb * t : ℚ) : ℝ))

/-- get_defects_concentration(temp, ef): one entry per defect in order,
with conc = equiv_site_no * 1e30 / volume * exp(-E_f/(kb temp)); the
symmetrized structure is the externally computed symmetry data carried by
the bulk entry.  none models the crash when a defect site matches no bulk
site. -/
noncomputable def get_defects_concentration (a : DefectsAnalyzer)
    (temp ef : ℚ) : Option (List ConcEntry) :=
  a.defects.enum.mapM (fun p =>
    (find_target_site a.entry_bulk.struct p.2.site).map (fun ts =>
      { name := p.2.name, charge := p.2.charge,
        conc := (((ts.equivCount : ℚ) * 10 ^ 30 / a.entry_bulk.struct.volume : ℚ) : ℝ)
          * boltz_weight a ef temp p.1 }))

/-- The cd accumulation loop at the start of get_non_eq_ef: total
concentration per defect name, keys in first-appearance order. -/
def conc_by_name (l : List ConcEntry) : List (String × ℝ) :=
  l.foldl (fun cd c =>
    match dictFind cd c.name with
    | some v => dictUpsert cd c.name (v + c.conc)
    | none => dictUpsert cd c.name c.conc) []

/-- The body of the outer loop of _get_non_eq_conc for one name n with
frozen total v: sum_tot collects the Boltzmann factors of all defects
named n, and one entry per such defect redistributes v proportionally. -/
noncomputable def non_eq_block (a : DefectsAnalyzer) (ef t : ℚ)
    (n : String) (v : ℝ) : List ConcEntry :=
  let sum_tot : ℝ := a.defects.enum.foldl
    (fun s p => if p.2.name = n then s + boltz_weight a ef t p.1 else s) 0;
  a.defects.enum.filterMap (fun p =>
    if p.2.name = n then
      some { name := p.2.name, charge := p.2.charge,
             conc := v * boltz_weight a ef t p.1 / sum_tot }
    else none)

/-- _get_non_eq_conc(cd, ef, t): the res list accumulated over the names
of cd in order. -/
noncomputable def get_non_eq_conc (a : DefectsAnalyzer) (cd : List (String × ℝ))
    (ef t : ℚ) : List ConcEntry :=
  cd.flatMap (fun p => non_eq_block a ef t p.1 p.2)

/-- The sum over charge states of the conc values carried by the entries
of a given defect name. -/
noncomputable def sum_conc (n : String) : List ConcEntry → ℝ
  | [] => 0
  | c :: rest => (if c.name = n then c.conc else 0) + sum_conc n rest

theorem dictFind_map_overwrite {α β : Type} [DecidableEq α] (l : List (α × β))
    (k : α) (v : β) (h : k ∈ l.map Prod.fst) :
    dictFind (l.map (fun p => if p.1 = k then (k, v) else p)) k = some v := by
  induction l with
  | nil => simp at h
  | cons p l ih =>
    by_cases hp : p.1 = k
    · simp [dictFind, List.find?_cons, hp]
    · have h' : k ∈ l.map Prod.fst := by
        rcases (by simpa using h : k = p.1 ∨ k ∈ l.map Prod.fst) with h0 | h0
        · exact absurd h0.symm hp
        · exact h0
      simpa [dictFind, List.find?_cons, hp] using ih h'

theorem dictFind_upsert_self {α β : Type} [DecidableEq α] (l : List (α × β))
    (k : α) (v : β) : dictFind (dictUpsert l k v) k = some v := by
  unfold dictUpsert
  split
  · rename_i h
    exact dictFind_map_overwrite l k v h
  · rename_i h
    unfold dictFind
    rw [List.find?_append, List.find?_eq_none.mpr]
    · simp
    · intro p hp
      simp only [decide_eq_true_eq]
      intro hpk
      exact h (List.mem_map.mpr ⟨p, hp, hpk⟩)

theorem dictFind_map_overwrite_ne {α β : Type} [DecidableEq α] (l : List (α × β))
    (k k' : α) (v : β) (h : k' ≠ k) :
    dictFind (l.map (fun p => if p.1 = k then (k, v) else p)) k' = dictFind l k' := by
  have hkk : ¬ (k = k') := fun hh => h hh.symm
  induction l with
  | nil => rfl
  | cons p l ih =>
    simp only [List.map_cons]
    by_cases hp : p.1 = k
    · rw [if_pos hp]
      have h1 : dictFind ((k, v) :: l.map (fun p => if p.1 = k then (k, v) else p)) k'
          = dictFind (l.map (fun p => if p.1 = k then (k, v) else p)) k' := by
        simp [dictFind, List.find?_cons, hkk]
      have h2 : dictFind (p :: l) k' = dictFind l k' := by
        have hpk : ¬ (p.1 = k') := by rw [hp]; exact hkk
        simp [dictFind, List.find?_cons, hpk]
      rw [h1, h2, ih]
    · rw [if_neg hp]
      by_cases hpk : p.1 = k'
      · simp [dictFind, List.find?_cons, hpk]
      · have h1 : dictFind (p :: l.map (fun p => if p.1 = k then (k, v) else p)) k'
            = dictFind (l.map (fun p => if p.1 = k then (k, v) else p)) k' := by
          simp [dictFind, List.find?_cons, hpk]
        have h2 : dictFind (p :: l) k' = dictFind l k' := by
          simp [dictFind, List.find?_cons, hpk]
        rw [h1, h2, ih]

theorem dictFind_upsert_ne {α β : Type} [DecidableEq α] (l : List (α × β))
    (k k' : α) (v : β) (h : k' ≠ k) :
    dictFind (dictUpsert l k v) k' = dictFind l k' := by
  have hkk : ¬ (k = k') := fun hh => h hh.symm
  unfold dictUpsert
  split
  · exact dictFind_map_overwrite_ne l k k' v h
  · unfold dictFind
    rw [List.find?_append]
    have hone : List.find? (fun p => decide (p.1 = k')) [(k, v)] = none := by
      simp [List.find?_cons, hkk]
    rw [hone]
    cases List.find? (fun p => decide (p.1 = k')) l <;> rfl

theorem sum_conc_append (n : String) (l1 l2 : List ConcEntry) :
    sum_conc n (l1 ++ l2) = sum_conc n l1 + sum_conc n l2 := by
  induction l1 with
  | nil => simp [sum_conc]
  | cons c l1 ih => simp [sum_conc, ih]; ring

theorem sum_conc_eq_zero (n : String) (l : List ConcEntry)
    (h : ∀ c ∈ l, c.name ≠ n) : sum_conc n l = 0 := by
  induction l with
  | nil => rfl
  | cons c l ih =>
    have hc := h c (List.mem_cons_self ..)
    simp only [sum_conc, if_neg hc]
    rw [ih (fun c hc => h c (List.mem_cons_of_mem _ hc))]
    ring

/-- The per-name Boltzmann sum written as a structural recursion. -/
noncomputable def if_sum (n : String) (E : ℕ × ParsedDefect → ℝ) :
    List (ℕ × ParsedDefect) → ℝ
  | [] => 0
  | p :: L => (if p.2.name = n then E p else 0) + if_sum n E L

theorem foldl_eq_if_sum (n : String) (E : ℕ × ParsedDefect → ℝ)
    (L : List (ℕ × ParsedDefect)) :
    ∀ s : ℝ, L.foldl (fun s p => if p.2.name = n then s + E p else s) s
      = s + if_sum n E L := by
  induction L with
  | nil => intro s; simp [if_sum]
  | cons p L ih =>
    intro s
    by_cases hp : p.2.name = n
    · simp only [List.foldl_cons, if_pos hp, if_sum, ih (s + E p)]
      ring
    · simp only [List.foldl_cons, if_neg hp, if_sum, ih s]
      ring

theorem if_sum_nonneg (n : String) (E : ℕ × ParsedDefect → ℝ)
    (hE : ∀ p, 0 < E p) (L : List (ℕ × ParsedDefect)) : 0 ≤ if_sum n E L := by
  induction L with
  | nil => simp [if_sum]
  | cons p L ih =>
    simp only [if_sum]
    have hif : (0 : ℝ) ≤ if p.2.name = n then E p else 0 := by
      split
      · exact le_of_lt (hE p)
      · exact le_refl 0
    linarith

theorem if_sum_pos (n : String) (E : ℕ × ParsedDefect → ℝ)
    (hE : ∀ p, 0 < E p) (L : List (ℕ × ParsedDefect))
    (hex : ∃ p ∈ L, p.2.name = n) : 0 < if_sum n E L := by
  induction L with
  | nil => simp at hex
  | cons p L ih =>
    simp only [if_sum]
    rcases hex with ⟨q, hq, hqn⟩
    rcases List.mem_cons.mp hq with rfl | hq'
    · rw [if_pos hqn]
      have h0 := if_sum_nonneg n E hE L
      have h1 := hE q
      linarith
    · have h1 := ih ⟨q, hq', hqn⟩
      have hif : (0 : ℝ) ≤ if p.2.name = n then E p else 0 := by
        split
        · exact le_of_lt (hE p)
        · exact le_refl 0
      linarith

theorem filterMap_block_sum (n : String) (E : ℕ × ParsedDefect → ℝ)
    (L : List (ℕ × ParsedDefect)) (v S : ℝ) :
    sum_conc n (L.filterMap (fun p =>
        if p.2.name = n then
          some { name := p.2.name, charge := p.2.charge, conc := v * E p / S }
        else none))
      = v * if_sum n E L / S := by
  induction L with
  | nil => simp [sum_conc, if_sum]
  | cons p L ih =>
    by_cases hp : p.2.name = n
    · simp only [List.filterMap_cons, if_pos hp, sum_conc, if_sum, ih]
      rw [mul_add, ← div_add_div_same]
    · simp only [List.filterMap_cons, if_neg hp, if_sum, ih]
      rw [zero_add]

theorem non_eq_block_names (a : DefectsAnalyzer) (ef t : ℚ) (m : String) (v : ℝ) :
    ∀ c ∈ non_eq_block a ef t m v, c.name = m := by
  intro c hc
  obtain ⟨p, _, hp⟩ := List.mem_filterMap.mp hc
  by_cases h : p.2.name = m
  · rw [if_pos h] at hp
    cases hp
    exact h
  · rw [if_neg h] at hp
    cases hp

theorem non_eq_block_sum (a : DefectsAnalyzer) (ef t : ℚ) (n : String) (v : ℝ)
    (hex : ∃ p ∈ a.defects.enum, p.2.name = n) :
    sum_conc n (non_eq_block a ef t n v) = v := by
  unfold non_eq_block
  rw [filterMap_block_sum n (fun p => boltz_weight a ef t p.1)]
  rw [foldl_eq_if_sum, zero_add]
  have hpos : 0 < if_sum n (fun p => boltz_weight a ef t p.1) a.defects.enum :=
    if_sum_pos n _ (fun p => Real.exp_pos _) _ hex
  rw [mul_div_assoc, div_self (ne_of_gt hpos), mul_one]

theorem flatMap_block_sum (a : DefectsAnalyzer) (ef t : ℚ)
    (cd : List (String × ℝ)) (hnd : (cd.map Prod.fst).Nodup) (n : String) :
    sum_conc n (get_non_eq_conc a cd ef t)
      = ((dictFind cd n).map (fun v => sum_conc n (non_eq_block a ef t n v))).getD 0 := by
  induction cd with
  | nil => rfl
  | cons mw cd ih =>
    have hnd' : (cd.map Prod.fst).Nodup := (List.nodup_cons.mp hnd).2
    have hm : mw.1 ∉ cd.map Prod.fst := (List.nodup_cons.mp hnd).1
    unfold get_non_eq_conc at ih ⊢
    rw [List.flatMap_cons, sum_conc_append]
    by_cases h : mw.1 = n
    · subst h
    -- head key is n
      have hfind : dictFind (mw :: cd) mw.1 = some mw.2 := by
        simp [dictFind, List.find?_cons]
      rw [hfind]
      have hrest : dictFind cd mw.1 = none := dictFind_none_of_not_mem cd mw.1 hm
      rw [ih hnd', hrest]
      simp
    · have hne : ¬ (mw.1 = n) := h
      have hz : sum_conc n (non_eq_block a ef t mw.1 mw.2) = 0 :=
        sum_conc_eq_zero n _ (fun c hc => by
          rw [non_eq_block_names a ef t mw.1 mw.2 c hc]
          exact hne)
      have hfind : dictFind (mw :: cd) n = dictFind cd n := by
        simp [dictFind, List.find?_cons, hne]
      rw [hz, hfind, ih hnd', zero_add]

theorem conc_by_name_nodup (l : List ConcEntry) :
    ((conc_by_name l).map Prod.fst).Nodup := by
  unfold conc_by_name
  suffices h : ∀ cd : List (String × ℝ), (cd.map Prod.fst).Nodup →
      ((l.foldl (fun cd c =>
        match dictFind cd c.name with
        | some v => dictUpsert cd c.name (v + c.conc)
        | none => dictUpsert cd c.name c.conc) cd).map Prod.fst).Nodup by
    exact h [] List.nodup_nil
  induction l with
  | nil => intro cd hcd; exact hcd
  | cons c l ih =>
    intro cd hcd
    simp only [List.foldl_cons]
    apply ih
    cases dictFind cd c.name <;> exact dictUpsert_keys_nodup _ _ _ hcd

theorem conc_by_name_lookup (l : List ConcEntry) (n : String) :
    dictFindD (conc_by_name l) n 0 = sum_conc n l := by
  unfold conc_by_name
  suffices h : ∀ cd : List (String × ℝ),
      dictFindD (l.foldl (fun cd c =>
        match dictFind cd c.name with
        | some v => dictUpsert cd c.name (v + c.conc)
        | none => dictUpsert cd c.name c.conc) cd) n 0
      = dictFindD cd n 0 + sum_conc n l by
    have := h []
    rw [this]
    simp [dictFindD, dictFind]
  induction l with
  | nil => intro cd; simp [sum_conc]
  | cons c l ih =>
    intro cd
    simp only [List.foldl_cons, sum_conc]
    rw [ih]
    have hstep : dictFindD (match dictFind cd c.name with
        | some v => dictUpsert cd c.name (v + c.conc)
        | none => dictUpsert cd c.name c.conc) n 0
        = dictFindD cd n 0 + (if c.name = n then c.conc else 0) := by
      by_cases hcn : c.name = n
      · subst hcn
        cases hf : dictFind cd c.name with
        | none =>
          simp only [if_pos rfl]
          unfold dictFindD
          rw [dictFind_upsert_self, hf]
          simp
        | some v =>
          simp only [if_pos rfl]
          unfold dictFindD
          rw [dictFind_upsert_self, hf]
          simp
      · have hne : n ≠ c.name := fun hh => hcn hh.symm
        cases hf : dictFind cd c.name with
        | none =>
          unfold dictFindD
          rw [dictFind_upsert_ne cd c.name n c.conc hne, if_neg hcn]
          ring
        | some v =>
          unfold dictFindD
          rw [dictFind_upsert_ne cd c.name n (v + c.conc) hne, if_neg hcn]
          ring
    rw [hstep]
    ring

theorem conc_by_name_keys_sub (l : List ConcEntry) (n : String)
    (h : n ∈ (conc_by_name l).map Prod.fst) : n ∈ l.map ConcEntry.name := by
  unfold conc_by_name at h
  suffices hgen : ∀ cd : List (String × ℝ),
      n ∈ ((l.foldl (fun cd c =>
        match dictFind cd c.name with
        | some v => dictUpsert cd c.name (v + c.conc)
        | none => dictUpsert cd c.name c.conc) cd).map Prod.fst) →
      n ∈ cd.map Prod.fst ∨ n ∈ l.map ConcEntry.name by
    rcases hgen [] h with h0 | h0
    · simp at h0
    · exact h0
  clear h
  induction l with
  | nil => intro cd h; exact Or.inl h
  | cons c l ih =>
    intro cd h
    simp only [List.foldl_cons] at h
    rcases ih _ h with h0 | h0
    · have hkeys : n ∈ cd.map Prod.fst ∨ n = c.name := by
        cases hf : dictFind cd c.name with
        | none =>
          rw [hf] at h0
          rw [dictUpsert_keys] at h0
          split at h0
          · exact Or.inl h0
          · rcases List.mem_append.mp h0 with h1 | h1
            · exact Or.inl h1
            · simp at h1
              exact Or.inr h1
        | some v =>
          rw [hf] at h0
          rw [dictUpsert_keys] at h0
          split at h0
          · exact Or.inl h0
          · rcases List.mem_append.mp h0 with h1 | h1
            · exact Or.inl h1
            · simp at h1
              exact Or.inr h1
      rcases hkeys with h1 | h1
      · exact Or.inl h1
      · exact Or.inr (by simp [h1])
    · refine Or.inr ?_
      simp only [List.map_cons]
      exact List.mem_cons_of_mem _ h0

theorem mapM_option_forall₂ {α β : Type} (f : α → Option β) :
    ∀ (xs : List α) (ys : List β), xs.mapM f = some ys →
      List.Forall₂ (fun x y => f x = some y) xs ys := by
  intro xs
  induction xs with
  | nil =>
    intro ys h
    rw [List.mapM_nil] at h
    cases h
    exact List.Forall₂.nil
  | cons x xs ih =>
    intro ys h
    rw [List.mapM_cons] at h
    cases hfx : f x with
    | none => rw [hfx] at h; simp at h
    | some y =>
      rw [hfx] at h
      cases hm : xs.mapM f with
      | none => rw [hm] at h; simp at h
      | some ys' =>
        rw [hm] at h
        simp only [Option.bind_some, Option.pure_def, Option.bind_eq_bind,
          Option.some_bind, Option.some_inj] at h
        subst h
        exact List.Forall₂.cons hfx (ih ys' hm)

theorem forall₂_exists_left {α β : Type} {R : α → β → Prop} :
    ∀ {xs : List α} {ys : List β}, List.Forall₂ R xs ys →
      ∀ y ∈ ys, ∃ x ∈ xs, R x y := by
  intro xs ys h
  induction h with
  | nil => intro y hy; cases hy
  | cons hr _ ih =>
    intro y hy
    rcases List.mem_cons.mp hy with rfl | hy'
    · exact ⟨_, List.mem_cons_self .., hr⟩
    · obtain ⟨x, hx, hxr⟩ := ih y hy'
      exact ⟨x, List.mem_cons_of_mem _ hx, hxr⟩

theorem gdc_defect_names (a : DefectsAnalyzer) (temp ef : ℚ) (l : List ConcEntry)
    (h : get_defects_concentration a temp ef = some l) (n : String)
    (hn : n ∈ l.map ConcEntry.name) : ∃ p ∈ a.defects.enum, p.2.name = n := by
  have hf := mapM_option_forall₂ _ _ _ h
  obtain ⟨c, hc, hcn⟩ := List.mem_map.mp hn
  obtain ⟨p, hp, hr⟩ := forall₂_exists_left hf c hc
  obtain ⟨ts, _, hts⟩ := Option.map_eq_some'.mp hr
  refine ⟨p, hp, ?_⟩
  rw [← hcn, ← hts]

/-- C3: the redistribution of _get_non_eq_conc conserves the total
concentration of every defect name: with cd built from the equilibrium
concentrations at the synthesis conditions (tsyn, efsyn) the way
get_non_eq_ef builds it, the per-name sum of the returned conc values at
any Fermi level ef and temperature t of use equals the per-name sum of
the equilibrium concentrations. -/
theorem c3_non_eq_conc_conserves (a : DefectsAnalyzer) (tsyn efsyn ef t : ℚ)
    (l : List ConcEntry)
    (h : get_defects_concentration a tsyn efsyn = some l) (n : String) :
    sum_conc n (get_non_eq_conc a (conc_by_name l) ef t) = sum_conc n l := by
  rw [flatMap_block_sum a ef t (conc_by_name l) (conc_by_name_nodup l) n]
  cases hf : dictFind (conc_by_name l) n with
  | none =>
    have hl := conc_by_name_lookup l n
    rw [dictFindD, hf] at hl
    simpa using hl
  | some v =>
    have hl := conc_by_name_lookup l n
    rw [dictFindD, hf] at hl
    have hv : v = sum_conc n l := by simpa using hl
    have hkey : n ∈ (conc_by_name l).map Prod.fst := by
      have hmem := dictFind_mem _ _ _ hf
      exact List.mem_map.mpr ⟨(n, v), hmem, rfl⟩
    have hex := gdc_defect_names a tsyn efsyn l h n (conc_by_name_keys_sub l n hkey)
    simp only [Option.map_some', Option.getD_some]
    rw [non_eq_block_sum a ef t n v hex, hv]

/-- The equilibrium concentration list of anaA at temp 1, ef 0. -/
noncomputable def concA : List ConcEntry :=
  [{ name := "v", charge := 0,
     conc := (((((1 : ℕ) : ℚ) * 10 ^ 30 / bulkA.struct.volume : ℚ) : ℝ))
       * boltz_weight anaA 0 1 0 },
   { name := "v", charge := 1,
     conc := (((((1 : ℕ) : ℚ) * 10 ^ 30 / bulkA.struct.volume : ℚ) : ℝ))
       * boltz_weight anaA 0 1 1 }]

theorem gdc_anaA : get_defects_concentration anaA 1 0 = some concA := by
  have hs : find_target_site bulkA.struct ⟨(0, 0, 0)⟩ = some ⟨(0, 0, 0), 1⟩ := by
    norm_num [find_target_site, bulkA, List.find?_cons]
  rw [get_defects_concentration]
  rw [show anaA.defects.enum = [(0, defectV0), (1, defectV1)] from rfl]
  rw [List.mapM_cons, List.mapM_cons, List.mapM_nil]
  rw [show defectV0.site = (⟨(0, 0, 0)⟩ : Site) from rfl,
      show defectV1.site = (⟨(0, 0, 0)⟩ : Site) from rfl,
      show anaA.entry_bulk.struct = bulkA.struct from rfl, hs]
  rfl

theorem c3_witness :
    sum_conc "v" (get_non_eq_conc anaA (conc_by_name concA) 1 1)
      = sum_conc "v" concA :=
  c3_non_eq_conc_conserves anaA 1 0 1 1 concA gdc_anaA "v"

theorem forall₂_getD {α β : Type} {R : α → β → Prop} (dx : α) (dy : β) :
    ∀ {xs : List α} {ys : List β}, List.Forall₂ R xs ys →
      ∀ i, i < xs.length → R (xs.getD i dx) (ys.getD i dy) := by
  intro xs ys h
  induction h with
  | nil => intro i hi; simp at hi
  | cons hr htail ih =>
    intro i hi
    cases i with
    | zero => simpa using hr
    | succ i =>
      have hi' := Nat.lt_of_succ_lt_succ (by simpa using hi)
      simpa using ih i hi'

/-- C5: when the site matching succeeds, get_defects_concentration returns
one entry per stored defect, in order, carrying the name and charge of
the defect and conc = equiv_site_no * 1e30 / volume * exp(-E_f/(kb temp))
for the matched bulk site; every concentration is strictly positive. -/
theorem c5_defects_concentration (a : DefectsAnalyzer) (temp ef : ℚ)
    (htemp : 0 < temp) (hvol : 0 < a.entry_bulk.struct.volume)
    (heq : ∀ s ∈ a.entry_bulk.struct.sites, 1 ≤ s.equivCount)
    (l : List ConcEntry) (h : get_defects_concentration a temp ef = some l) :
    l.length = a.defects.length ∧
    ∀ i, i < a.defects.length →
      ∃ ts, find_target_site a.entry_bulk.struct (a.defects.getD i default).site
          = some ts ∧
        l.getD i ⟨"", 0, 0⟩
          = ⟨(a.defects.getD i default).name, (a.defects.getD i default).charge,
             ((((ts.equivCount : ℚ) * 10 ^ 30 / a.entry_bulk.struct.volume : ℚ) : ℝ)
               * boltz_weight a ef temp i)⟩ ∧
        0 < (l.getD i ⟨"", 0, 0⟩).conc := by
  have hf := mapM_option_forall₂ _ _ _ h
  have hlen : l.length = a.defects.length := by
    have h2 := hf.length_eq
    rw [List.enum_length] at h2
    exact h2.symm
  refine ⟨hlen, ?_⟩
  intro i hi
  have hienum : i < a.defects.enum.length := by rwa [List.enum_length]
  have hr := forall₂_getD (0, default) (⟨"", 0, 0⟩ : ConcEntry) hf i hienum
  have henum : a.defects.enum.getD i (0, default) = (i, a.defects.getD i default) := by
    rw [List.getD_eq_getElem?_getD, List.getElem?_eq_getElem hienum,
      List.getD_eq_getElem?_getD, List.getElem?_eq_getElem hi]
    simp [List.getElem_enum]
  rw [henum] at hr
  obtain ⟨ts, hts, hc⟩ := Option.map_eq_some'.mp hr
  refine ⟨ts, hts, hc.symm, ?_⟩
  rw [← hc]
  have hts_mem : ts ∈ a.entry_bulk.struct.sites := List.mem_of_find?_eq_some hts
  have h1 : (1 : ℚ) ≤ (ts.equivCount : ℚ) := by
    exact_mod_cast heq ts hts_mem
  have hq : (0 : ℚ) < (ts.equivCount : ℚ) * 10 ^ 30 / a.entry_bulk.struct.volume := by
    apply div_pos _ hvol
    positivity
  have hqr : (0 : ℝ) < (((ts.equivCount : ℚ) * 10 ^ 30 / a.entry_bulk.struct.volume : ℚ) : ℝ) := by
    exact_mod_cast hq
  exact mul_pos hqr (Real.exp_pos _)

theorem c5_witness :
    (0 : ℚ) < 1 ∧
    (concA.length = anaA.defects.length ∧
     ∀ i, i < anaA.defects.length →
       ∃ ts, find_target_site anaA.entry_bulk.struct
           (anaA.defects.getD i default).site = some ts ∧
         concA.getD i ⟨"", 0, 0⟩
           = ⟨(anaA.defects.getD i default).name, (anaA.defects.getD i default).charge,
              ((((ts.equivCount : ℚ) * 10 ^ 30 / anaA.entry_bulk.struct.volume : ℚ) : ℝ)
                * boltz_weight anaA 0 1 i)⟩ ∧
         0 < (concA.getD i ⟨"", 0, 0⟩).conc) :=
  ⟨by norm_num,
   c5_defects_concentration anaA 1 0 (by norm_num)
     (by rw [show anaA.entry_bulk.struct.volume = 1 from rfl]; norm_num)
     (by intro s hs
         rw [show anaA.entry_bulk.struct.sites = [⟨(0, 0, 0), 1⟩] from rfl] at hs
         rw [List.mem_singleton.mp hs])
     concA gdc_anaA⟩

/-! ### C1: _get_qi, _get_qtot and get_eq_ef -/

/-- Python name resolution over a finite scope of bindings: reading an
unbound name raises NameError. -/
def resolveName {α : Type} (env : List (String × α)) (n : String) : Except String α :=
  match dictFind env n with
  | some v => Except.ok v
  | none => Except.error ("NameError: name " ++ n ++ " is not defined")

/-- _get_qi: the two carrier integrals are computed externally by
scipy.integrate.quad (their values enter as the abstract parameters
quad_elec and quad_hole, so the density-of-states integrands are not
re-modelled here) and bound to the local names elec_count and hole_count;
the return statement then reads el_cnt and hl_cnt, which are bound
neither in the function scope nor at module level. -/
def get_qi (a : DefectsAnalyzer) (ef t : ℚ) (m_elec m_hole : ℚ × ℚ × ℚ)
    (quad_elec quad_hole : ℝ) : Except String ℝ := do
  let elec_count : ℝ := -quad_elec
  let hole_count : ℝ := quad_hole
  let env : List (String × ℝ) :=
    [("elec_count", elec_count), ("hole_count", hole_count)]
  let a1 ← resolveName env "el_cnt"
  let a2 ← resolveName env "hl_cnt"
  pure (a1 + a2)

/-- _get_qd(ef, t): sum of charge times concentration over
get_defects_concentration(t, ef). -/
noncomputable def get_qd (a : DefectsAnalyzer) (ef t : ℚ) : Option ℝ :=
  (get_defects_concentration a t ef).map
    (fun l => l.foldl (fun s c => s + c.charge * c.conc) 0)

/-- _get_qtot(ef, t, m_elec, m_hole) = _get_qd + _get_qi, with _get_qd
evaluated first; the crash of find_equivalent_sites(None) on a failed
site match surfaces as a TypeError. -/
noncomputable def get_qtot (a : DefectsAnalyzer) (ef t : ℚ)
    (m_elec m_hole : ℚ × ℚ × ℚ) (quad_elec quad_hole : ℝ) : Except String ℝ := do
  let qd ← match get_qd a ef t with
    | some v => Except.ok v
    | none => Except.error "TypeError: find_equivalent_sites of None"
  let qi ← get_qi a ef t m_elec m_hole quad_elec quad_hole
  pure (qd + qi)

/-- scipy.optimize.bisect is external; it begins by evaluating f at the
two endpoints, so an exception raised by f propagates out of the call;
the numerical root search itself is abstracted by the oracle parameter
root. -/
def bisect (f : ℚ → Except String ℝ) (lo hi : ℚ) (root : ℚ) : Except String ℚ := do
  let _ ← f lo
  let _ ← f hi
  pure root

/-- The dict returned by get_eq_ef. -/
structure EqEfResult where
  ef : ℚ
  Qi : ℝ
  QD : ℝ
  conc : List ConcEntry

/-- get_eq_ef(t, m_elec, m_hole): bisect the total charge on
[0, band_gap], then assemble the result dict. -/
noncomputable def get_eq_ef (a : DefectsAnalyzer) (t : ℚ)
    (m_elec m_hole : ℚ × ℚ × ℚ) (quad_elec quad_hole : ℝ) (root : ℚ) :
    Except String EqEfResult := do
  let ef ← bisect (fun e => get_qtot a e t m_elec m_hole quad_elec quad_hole)
    0 a.band_gap root
  let qi ← get_qi a ef t m_elec m_hole quad_elec quad_hole
  let qd ← match get_qd a ef t with
    | some v => Except.ok v
    | none => Except.error "TypeError: find_equivalent_sites of None"
  let conc ← match get_defects_concentration a t ef with
    | some l => Except.ok l
    | none => Except.error "TypeError: find_equivalent_sites of None"
  pure ⟨ef, qi, qd, conc⟩

def exceptIsOk {ε α : Type} : Except ε α → Bool
  | Except.ok _ => true
  | Except.error _ => false

theorem get_qi_error (a : DefectsAnalyzer) (ef t : ℚ) (m_elec m_hole : ℚ × ℚ × ℚ)
    (quad_elec quad_hole : ℝ) :
    get_qi a ef t m_elec m_hole quad_elec quad_hole
      = Except.error "NameError: name el_cnt is not defined" := rfl

/-- The total-charge function always fails: its _get_qi call raises. -/
theorem get_qtot_error (a : DefectsAnalyzer) (ef t : ℚ)
    (m_elec m_hole : ℚ × ℚ × ℚ) (quad_elec quad_hole : ℝ) :
    ∃ e, get_qtot a ef t m_elec m_hole quad_elec quad_hole = Except.error e := by
  unfold get_qtot
  cases get_qd a ef t
  · exact ⟨_, rfl⟩
  · exact ⟨_, rfl⟩

/-- C1: get_eq_ef never returns a value, on any analyzer and any inputs:
the charge-balance function evaluated by the bisection calls _get_qi,
whose return statement reads the unbound names el_cnt and hl_cnt and so
raises NameError (if the defect-concentration lookup crashes first, that
error propagates instead); no charge-balanced Fermi level dict is ever
produced. -/
theorem c1_get_eq_ef_never_returns (a : DefectsAnalyzer) (t : ℚ)
    (m_elec m_hole : ℚ × ℚ × ℚ) (quad_elec quad_hole : ℝ) (root : ℚ) :
    exceptIsOk (get_eq_ef a t m_elec m_hole quad_elec quad_hole root) = false := by
  obtain ⟨e, he⟩ := get_qtot_error a 0 t m_elec m_hole quad_elec quad_hole
  unfold get_eq_ef bisect
  beta_reduce
  rw [he]
  rfl

/-! ### C7: as_dict / from_dict -/

/-- The dict produced by ParsedDefect.as_dict, keeping the fields
from_dict reads back; the nested entry and site dicts round-trip through
pymatgen (external) and are modelled by the objects themselves, and the
stored full_name is derived from name and charge and ignored by
from_dict. -/
structure ParsedDefectDict where
  entry : ComputedEntry
  site : Site
  charge : ℚ
  charge_correction : ℚ
  name : String
deriving DecidableEq

def ParsedDefect.as_dict (p : ParsedDefect) : ParsedDefectDict :=
  ⟨p.entry, p.site, p.charge, p.charge_correction, p.name⟩

def ParsedDefect.from_dict (d : ParsedDefectDict) : ParsedDefect :=
  ⟨d.entry, d.site, d.charge, d.charge_correction, d.name⟩

/-- The dict produced by DefectsAnalyzer.as_dict. -/
structure DefectsAnalyzerDict where
  entry_bulk : ComputedEntry
  e_vbm : ℚ
  mu_elts : List (String × ℚ)
  band_gap : ℚ
  defects : List ParsedDefectDict
  formation_energies : List ℚ
deriving DecidableEq

def DefectsAnalyzer.as_dict (a : DefectsAnalyzer) : DefectsAnalyzerDict :=
  ⟨a.entry_bulk, a.e_vbm, a.mu_elts, a.band_gap,
   a.defects.map ParsedDefect.as_dict, a.formation_energies⟩

/-- The attributes of class DefectsAnalyzer that take one defect argument:
the class defines add_parsed_defect; no attribute is named add_defect, so
looking that name up raises AttributeError. -/
def analyzer_defect_methods :
    List (String × (DefectsAnalyzer → ParsedDefect → DefectsAnalyzer)) :=
  [("add_parsed_defect", add_parsed_defect)]

/-- DefectsAnalyzer.from_dict: rebuild the analyzer from the stored
fields, then call analyzer.add_defect(ParsedDefect.from_dict(ddict)) for
every stored defect dict; the attribute lookup of add_defect is modelled
through the method table above. -/
def DefectsAnalyzer.from_dict (d : DefectsAnalyzerDict) :
    Except String DefectsAnalyzer :=
  d.defects.foldlM (fun analyzer dd =>
    match dictFind analyzer_defect_methods "add_defect" with
    | some f => Except.ok (f analyzer (ParsedDefect.from_dict dd))
    | none => Except.error
        "AttributeError: DefectsAnalyzer object has no attribute add_defect")
    (DefectsAnalyzer.init d.entry_bulk d.e_vbm d.mu_elts d.band_gap)

/-- C7 (code evaluation at the failing input): on the concrete two-defect
analyzer anaA, DefectsAnalyzer.from_dict(anaA.as_dict()) raises
AttributeError instead of reconstructing the analyzer, because the loop
calls the nonexistent method add_defect (the class only defines
add_parsed_defect); the round trip fails for every analyzer holding at
least one defect, while the ParsedDefect round trip itself is lossless. -/
theorem c7_from_dict_attribute_error :
    DefectsAnalyzer.from_dict (DefectsAnalyzer.as_dict anaA)
      = Except.error
          "AttributeError: DefectsAnalyzer object has no attribute add_defect" ∧
    ∀ p : ParsedDefect, ParsedDefect.from_dict (ParsedDefect.as_dict p) = p :=
  ⟨rfl, fun _ => rfl⟩

/-! ### C10: make_vasp_dielectric_files -/

/-- The filesystem effects a vasp-input writer can perform: directories
created by os.makedirs and files written by the write_file calls. -/
structure FS where
  dirs : List String
  files : List String
deriving DecidableEq

/-- Python name resolution over a scope that only records which names are
bound (the values are irrelevant to the claims). -/
def resolveBound (bound : List String) (n : String) : Except String Unit :=
  if n ∈ bound then Except.ok ()
  else Except.error ("NameError: name " ++ n ++ " is not defined")

/-- The names bound at module level in pycdcd/utils/vasp.py: the imports
and the two function definitions.  Neither s nor kpoint is among them. -/
def vasp_module_names : List String :=
  ["Kpoints", "MPVaspInputSet", "loadfn", "dumpfn", "MontyDecoder",
   "MontyEncoder", "os", "make_vasp_defect_files", "make_vasp_dielectric_files"]

/-- The structure argument, reduced to what the function reads. -/
structure PmgStructure where
  reduced_formula : String
deriving DecidableEq

/-- make_vasp_dielectric_files(struct, user_settings, hse): the first
statement evaluates s['structure'] while building the VASP inputs, and
the name s is bound neither in the function scope (whose parameters are
struct, user_settings and hse) nor at module level, so NameError is
raised there, before os.makedirs or any write_file call runs.  The dead
continuation after that read is kept in order: the INCAR updates are
pure, then the dielectric directory is created, INCAR is written, and the
kpoint.write_file line reads the likewise unbound name kpoint, stopping
the remaining writes.  The external input-set construction is irrelevant
to the outcome and is dropped with the unreachable dict_params values. -/
def make_vasp_dielectric_files (struct : PmgStructure)
    (user_settings : List (String × String)) (hse : Bool) (fs : FS) :
    Except String Unit × FS :=
  match resolveBound (["struct", "user_settings", "hse"] ++ vasp_module_names) "s" with
  | Except.error e => (Except.error e, fs)
  | Except.ok _ =>
      let path_base := struct.reduced_formula;
      let path := path_base ++ "/dielectric";
      let fs1 : FS := ⟨fs.dirs ++ [path], fs.files⟩;
      let fs2 : FS := ⟨fs1.dirs, fs1.files ++ [path ++ "/INCAR"]⟩;
      match resolveBound (["struct", "user_settings", "hse", "dict_params",
          "incar", "path_base", "path"] ++ vasp_module_names) "kpoint" with
      | Except.error e => (Except.error e, fs2)
      | Except.ok _ =>
          (Except.ok (), ⟨fs2.dirs, fs2.files ++
            [path ++ "/KPOINTS", path ++ "/KPOINTS", path ++ "/POSCAR",
             path ++ "/POTCAR"]⟩)

/-- C10: make_vasp_dielectric_files raises NameError on every input, from
reading the unbound name s while building the VASP input parameters (the
later kpoint read is likewise unbound but never reached), and the
filesystem is returned exactly as it was: no directory is created and no
file is written. -/
theorem c10_dielectric_files_name_error (struct : PmgStructure)
    (user_settings : List (String × String)) (hse : Bool) (fs : FS) :
    make_vasp_dielectric_files struct user_settings hse fs
      = (Except.error "NameError: name s is not defined", fs) := rfl
